import Mathlib

/-!
Verification development for the str8ts constraint-propagation solver
(`str8ts.py`).  The Python source is shallowly embedded: the mutable
`Cell` objects become a Lean structure, mutation becomes explicit state
passing, Python exceptions become `Option`/`Except` results, and the
driver's `while` loop is run on explicit fuel.  Digits are modelled as
natural numbers `1`–`9` (the source stores them as the characters
`'1'`–`'9'`; `ALL.index d` becomes `d - 1`).
-/

namespace Str8ts

/-- The digit alphabet `ALL = ['1'..'9']` of the source, as numbers. -/
def ALLD : List ℕ := [1, 2, 3, 4, 5, 6, 7, 8, 9]

/-- One character of a cell's constructor string: `#` (black), a letter
`a`–`i` (black with clue `ord(d) - 96`), a digit `1`–`9` (given), or one
of `.`/space/`*` (unknown white cell). -/
inductive Sym where
  | blackSym : Sym
  | clueSym (n : ℕ) : Sym
  | digitSym (n : ℕ) : Sym
  | unknownSym : Sym
deriving Repr, DecidableEq

/-- `Cell.__init__` state: `black`, `given`, the candidate list `digits`
(kept in list order, as the Python `list`), the debug set `removed`, the
two cached sure-candidate sets, and the `known` flag. -/
structure Cell where
  black : Bool
  given : Bool
  digits : List ℕ
  removed : Finset ℕ
  scRow : Finset ℕ
  scCol : Finset ℕ
  known : Bool
deriving DecidableEq

instance : Inhabited Cell := ⟨⟨false, false, [], ∅, ∅, ∅, false⟩⟩

/-- The loop body of `Cell.__init__` over the constructor characters. -/
def initStep (c : Cell) : Sym → Cell
  | .blackSym => { c with black := true }
  | .clueSym n => { c with black := true, digits := c.digits ++ [n] }
  | .digitSym n => { c with digits := c.digits ++ [n], given := true }
  | .unknownSym => { c with digits := c.digits ++ ALLD }

/-- `Cell.__init__(digits)`: fold the constructor characters, then set
`known` iff exactly one candidate remains. -/
def Cell.init (syms : List Sym) : Cell :=
  let c := syms.foldl initStep ⟨false, false, [], ∅, ∅, ∅, false⟩
  { c with known := c.digits.length == 1 }

/-- `Cell.is_black`. -/
def Cell.isBlack (c : Cell) : Bool := c.black

/-- `Cell.is_white`. -/
def Cell.isWhite (c : Cell) : Bool := !c.black

/-- `Cell.is_known`. -/
def Cell.isKnown (c : Cell) : Bool := c.known

/-- `Cell.is_unknown`: `not self.known and not self.black`. -/
def Cell.isUnknown (c : Cell) : Bool := !c.known && !c.black

/-- The body of the `for d in n` loop of `Cell.can_not_be`: if `d` is a
candidate, drop it from `digits` (Python `list.remove` drops the first
occurrence, i.e. `List.erase`), record it in `removed`, and purge it from
both cached sure-candidate sets. -/
def elimStep (c : Cell) (d : ℕ) : Cell :=
  if d ∈ c.digits then
    { c with digits := c.digits.erase d,
             removed := insert d c.removed,
             scRow := c.scRow.erase d,
             scCol := c.scCol.erase d }
  else c

/-- `Cell.can_not_be(n)`: a no-op unless the cell is unknown; removes the
digits of `n` and then sets `known` when one candidate is left. -/
def canNotBe (c : Cell) (n : List ℕ) : Cell :=
  if c.isUnknown then
    if (n.foldl elimStep c).digits.length = 1 then
      { n.foldl elimStep c with known := true }
    else n.foldl elimStep c
  else c

/-- `Cell.value_is(n)`: the state after the (asserted) precondition
`n ∈ digits` holds: all other digits are recorded as removed, `digits`
becomes `[n]` and the cell is known. -/
def valueIs (c : Cell) (n : ℕ) : Cell :=
  { c with removed := c.removed ∪ (c.digits.filter (· ≠ n)).toFinset,
           digits := [n],
           known := true }

/-- `Cell.value()` of a known cell: `digits[0]`. -/
def Cell.value (c : Cell) : ℕ := c.digits.headD 0

/-- The spec's cell invariant: `known ⟺ |candidates| == 1`. -/
def cellInv (c : Cell) : Prop := c.known = true ↔ c.digits.length = 1

/-- A single mutation of one cell, as issued by a technique: every
technique of the step list touches candidate lists only through
`can_not_be` and `value_is` (the `ProxyCell` of split compartments
delegates to the underlying cell's `can_not_be`). -/
inductive CellOp where
  | elim (n : List ℕ) : CellOp
  | assign (d : ℕ) : CellOp

/-- Run one mutation. -/
def applyOp (c : Cell) : CellOp → Cell
  | .elim n => canNotBe c n
  | .assign d => valueIs c d

/-- Run a technique's whole mutation trace on one cell. -/
def applyOps (c : Cell) (ops : List CellOp) : Cell := ops.foldl applyOp c

/-- The `assert(n in self.digits)` of `value_is`, per operation. -/
def opValid (c : Cell) : CellOp → Prop
  | .assign d => d ∈ c.digits
  | .elim _ => True

instance opValidDec (c : Cell) : ∀ op, Decidable (opValid c op)
  | .assign d => inferInstanceAs (Decidable (d ∈ c.digits))
  | .elim _ => inferInstanceAs (Decidable True)

/-- A mutation trace is valid when every assignment along it names a
then-current candidate. -/
def opsValid (c : Cell) : List CellOp → Prop
  | [] => True
  | op :: rest => opValid c op ∧ opsValid (applyOp c op) rest

instance opsValidDec : (c : Cell) → (ops : List CellOp) → Decidable (opsValid c ops)
  | _, [] => .isTrue trivial
  | c, op :: rest =>
    @instDecidableAnd _ _ (opValidDec c op) (opsValidDec (applyOp c op) rest)

instance (c : Cell) : Decidable (cellInv c) := by
  unfold cellInv; infer_instance

/-!  Board model.  The source's `Board` is a dict from the 81 coordinates
`('1'..'9') × ('A'..'I')` to `Cell`; we model it as a list of rows.  -/

/-- A board: the rows `A`–`I`, each a list of the cells at `1`–`9`. -/
abbrev Board := List (List Cell)

/-- All cells of the board (the dict's value view). -/
def Board.cells (b : Board) : List Cell := b.flatten

/-- `board[x, y]` (row `y`, column `x`). -/
def getCell (b : Board) (y x : ℕ) : Cell := (b.getD y []).getD x default

/-- Write one cell back (the effect of mutating `board[x, y]`). -/
def setCell (b : Board) (y x : ℕ) (c : Cell) : Board :=
  b.set y ((b.getD y []).set x c)

/-- `Board._completeness`: `9` per known cell, else `9 − |candidates|`,
summed over every cell (`ℤ`, as Python integers are unbounded). -/
def completeness (b : Board) : ℤ :=
  (b.cells.map (fun c => if c.isKnown then (9 : ℤ) else 9 - c.digits.length)).sum

/-- `Board._clear_removed`: empty every cell's debug `removed` set. -/
def clearRemoved (b : Board) : Board :=
  b.map (fun row => row.map (fun c => { c with removed := ∅ }))

/-!  `Board._valid`.  The first loop iterates all cells and, on a white
cell with no candidates, executes `raise Board.InvalidSolution(x, y,
c.digits)` — but that loop unpacks the coordinate into `_`, so `x` and
`y` are unbound names there and Python raises `NameError` instead of
`InvalidSolution`.  The row/column loops raise `InvalidSolution(x, y, d)`
at the first repeated known value.  -/

/-- What `Board._valid` can raise: `nameError` models the `NameError`
produced by the empty-candidate branch (its `raise` references the
undefined names `x` and `y`); `dup x y d` models
`InvalidSolution(x, y, d)` for a repeated known value `d`. -/
inductive ValidError where
  | nameError : ValidError
  | dup (x y d : ℕ) : ValidError
deriving DecidableEq

/-- Inner loop of the duplicate scan of `Board._valid`: walk one line,
collecting the values of known cells, and report the first repeated value
together with its position in the line. -/
def scanDup (seen : Finset ℕ) : List (ℕ × Cell) → Option (ℕ × ℕ)
  | [] => none
  | (i, c) :: rest =>
    if c.isKnown then
      let d := c.value
      if d ∈ seen then some (i, d) else scanDup (insert d seen) rest
    else scanDup seen rest

/-- One row `y` of the board paired with column indices. -/
def rowWithIdx (b : Board) (y : ℕ) : List (ℕ × Cell) :=
  (List.range 9).map (fun x => (x, getCell b y x))

/-- One column `x` of the board paired with row indices. -/
def colWithIdx (b : Board) (x : ℕ) : List (ℕ × Cell) :=
  (List.range 9).map (fun y => (y, getCell b y x))

/-- First duplicate among the rows, in row order; the raise is
`InvalidSolution(x, y, d)`. -/
def rowDups (b : Board) : Option ValidError :=
  (List.range 9).foldl
    (fun acc y =>
      acc.orElse (fun _ =>
        (scanDup ∅ (rowWithIdx b y)).map (fun p => .dup p.1 y p.2)))
    none

/-- First duplicate among the columns, in column order; the raise is
`InvalidSolution(x, y, d)` with `x` the column label. -/
def colDups (b : Board) : Option ValidError :=
  (List.range 9).foldl
    (fun acc x =>
      acc.orElse (fun _ =>
        (scanDup ∅ (colWithIdx b x)).map (fun p => .dup x p.1 p.2)))
    none

/-- `Board._valid`: `none` = returns normally; `some e` = raises `e`.
The empty-candidate loop runs first and, whenever any white cell has no
candidates, raises `NameError` (see `ValidError.nameError`). -/
def validCheck (b : Board) : Option ValidError :=
  if b.cells.any (fun c => c.isWhite && c.digits.isEmpty) then
    some .nameError
  else
    match rowDups b with
    | some e => some e
    | none => colDups b

/-!  Compartments (`generate_compartments_by_cell`) and the techniques
shared between the row and column wrappers.  A technique is applied to
each maximal run of white cells of a line; black cells are untouched
(compartment membership is fixed because no operation changes `black`).  -/

/-- Walk a line accumulating the current run of white cells; on a black
cell, flush the run through `f` and keep the black cell in place.  This
is `generate_compartments_by_cell` fused with the per-compartment
application loop of the `Board.<technique>_by_row/col` wrappers. -/
def mcGo (f : List Cell → List Cell) (run : List Cell) : List Cell → List Cell
  | [] => if run.isEmpty then [] else f run
  | c :: rest =>
    if c.isWhite then mcGo f (run ++ [c]) rest
    else (if run.isEmpty then [] else f run) ++ c :: mcGo f [] rest

/-- Apply a per-compartment technique to every compartment of a line. -/
def mapCompartments (f : List Cell → List Cell) (cells : List Cell) : List Cell :=
  mcGo f [] cells

/-- `min(c.digits)` as a number (the source's `ALL.index(min(...))` is
this minus one).  Python raises `ValueError` on an empty list; candidate
lists of compartment cells are never empty when the technique is
reachable, and we default to `0` there. -/
def minD (l : List ℕ) : ℕ := l.min?.getD 0

/-- `max(c.digits)` as a number. -/
def maxD (l : List ℕ) : ℕ := l.max?.getD 0

/-- The `while min_digit_index < 9 and min_digit_index in lowest` loop of
`compartment_range_check_by_cells`: advance to the first rank not yet
claimed.  The counter starts at a digit index `≥ 0` and stops before
`9`, so ten steps of fuel always run the loop to completion. -/
def bumpUp (s : Finset ℤ) : ℕ → ℤ → ℤ
  | 0, i => i
  | fuel + 1, i => if i < 9 ∧ i ∈ s then bumpUp s fuel (i + 1) else i

/-- The `while max_digit_index >= 0 and max_digit_index in highest` loop:
descend to the first rank not yet claimed. -/
def bumpDown (s : Finset ℤ) : ℕ → ℤ → ℤ
  | 0, i => i
  | fuel + 1, i => if 0 ≤ i ∧ i ∈ s then bumpDown s fuel (i - 1) else i

/-- The cell walk of `compartment_range_check_by_cells`, producing the
claimed-rank sets `lowest` and `highest`. -/
def crcBounds (cells : List Cell) : Finset ℤ × Finset ℤ :=
  cells.foldl
    (fun acc c =>
      let mi := bumpUp acc.1 10 ((minD c.digits : ℤ) - 1)
      let ma := bumpDown acc.2 10 ((maxD c.digits : ℤ) - 1)
      (insert mi acc.1, insert ma acc.2))
    (∅, ∅)

/-- `max` of a finite set of ranks (nonempty whenever the compartment is,
defaulting to `0` on the unreachable empty case). -/
def fmax (s : Finset ℤ) : ℤ := s.max.unbot' 0

/-- `min` of a finite set of ranks. -/
def fmin (s : Finset ℤ) : ℤ := s.min.untop' 0

/-- The `digits_out_of_range` of `compartment_range_check_by_cells`:
`ALL[:max(max(lowest) − reach, 0)] + ALL[min(highest) + reach + 1:]`
with `reach = len(compartment) − 1`. -/
def crcOut (cells : List Cell) : List ℕ :=
  ALLD.take (max (fmax (crcBounds cells).1 - ((cells.length : ℤ) - 1)) 0).toNat ++
  ALLD.drop (fmin (crcBounds cells).2 + ((cells.length : ℤ) - 1) + 1).toNat

/-- `compartment_range_check_by_cells`: eliminate the out-of-range digits
from every cell of the compartment. -/
def compartmentRangeCheck (cells : List Cell) : List Cell :=
  if (crcOut cells).isEmpty then cells
  else cells.map (fun c => canNotBe c (crcOut cells))

/-!  `naked_groups_by_cells`.  `itertools.combinations(cells, r)`
enumerates index combinations in lexicographic order; membership of a
cell in a combination is object identity in the source, i.e. position.  -/

/-- Lexicographic `r`-combinations of a list (`itertools.combinations`). -/
def combos {α : Type} : ℕ → List α → List (List α)
  | 0, _ => [[]]
  | _ + 1, [] => []
  | r + 1, x :: xs => (combos r xs).map (x :: ·) ++ combos (r + 1) xs

/-- `xrange(n, 1, -1)`: the group sizes `n, n−1, …, 2`. -/
def rList (n : ℕ) : List ℕ := (List.range' 2 (n - 1)).reverse

/-- The candidate union of the cells at the combination's positions. -/
def comboUnion (cells : List Cell) (comb : List ℕ) : Finset ℕ :=
  comb.foldl (fun s i => s ∪ (cells.getD i default).digits.toFinset) ∅

/-- The body of `naked_groups_by_cells` for one combination: when the
union has exactly as many digits as the group has cells, every other
cell is eliminated from — unless its candidates are a subset of the
union (`digits.issuperset(c.digits)`), in which case it is skipped so
that it is not emptied. -/
def nakedGroupEliminate (cells : List Cell) (comb : List ℕ) : List Cell :=
  if (comboUnion cells comb).card = comb.length then
    (List.range cells.length).map (fun i =>
      if i ∈ comb then cells.getD i default
      else if (cells.getD i default).digits.toFinset ⊆ comboUnion cells comb then
        cells.getD i default
      else canNotBe (cells.getD i default) ((comboUnion cells comb).sort (· ≤ ·)))
  else cells

/-- `naked_groups_by_cells`: fold the elimination over every group size
from `len(cells)` down to `2` and every combination of that size. -/
def nakedGroupsByCells (cells : List Cell) : List Cell :=
  (rList cells.length).foldl
    (fun cs r => (combos r (List.range cells.length)).foldl nakedGroupEliminate cs)
    cells

/-!  `Board.solve`.  A technique `s` in the step list is `s(self)`:
it mutates the board and returns a truthy hit flag, modelled as
`Board → Board × Bool`.  The driver tracks the completeness metric,
applies the first technique that reports a hit or changes completeness
and restarts the pass; a full pass with no hit and no change is the
stall exit.  The `while` loop runs on fuel (`none` = fuel exhausted);
`_valid` raising on either exit is the `Except.error` result.  -/

/-- A deduction technique of the step list. -/
abbrev Tech := Board → Board × Bool

/-- One `for s in steps` pass of `Board.solve`: apply techniques in
order; `some c` means a technique hit or changed completeness to `c`
(the `break`), `none` means the pass completed with no hit and no
completeness change (the `for`'s `else`). -/
def solvePass (steps : List Tech) (b : Board) (comp : ℤ) : Board × Option ℤ :=
  match steps with
  | [] => (b, none)
  | s :: rest =>
    let p := s b
    let c := completeness p.1
    if p.2 = true ∨ comp ≠ c then (p.1, some c) else solvePass rest p.1 comp

/-- The `while completeness != 729` loop of `Board.solve`, with the two
exits: completeness reached (clear the removed sets, run `_valid`,
return `True`) and stall (same, returning `False`). -/
def solveGo (steps : List Tech) : ℕ → Board → ℤ → Option (Except ValidError (Bool × Board))
  | 0, _, _ => none
  | fuel + 1, b, comp =>
    if comp = 729 then
      some (match validCheck (clearRemoved b) with
            | some e => Except.error e
            | none => Except.ok (true, clearRemoved b))
    else
      match solvePass steps b comp with
      | (b', some c) => solveGo steps fuel b' c
      | (b', none) =>
        if completeness b' = comp then
          some (match validCheck (clearRemoved b') with
                | some e => Except.error e
                | none => Except.ok (false, clearRemoved b'))
        else solveGo steps fuel b' comp

/-- `Board.solve`: initialise the tracked completeness from the board
and run the loop. -/
def solveDriver (steps : List Tech) (fuel : ℕ) (b : Board) :
    Option (Except ValidError (Bool × Board)) :=
  solveGo steps fuel b (completeness b)

/-!  `Board.chain_contradiction`.  Each trial builds `deepcopy(self)`,
forces a digit with `value_is`, and replays the step list on the copy
inside `try`; the replay outcome is abstracted as a function of the
trial board.  A bare `except` converts any raise into a permanent
`can_not_be` on the original cell; a replay that reaches 729 accepts the
digit on the original cell; a stall draws no conclusion.  -/

/-- Outcome of replaying the step list on a trial copy: `solved` =
completeness reached 729, `stalled` = `_solve` returned `False`,
`raised` = some exception (an `InvalidSolution` from `_valid`, or any
other error caught by the bare `except`). -/
inductive Replay where
  | solved : Replay
  | stalled : Replay
  | raised : Replay
deriving DecidableEq

/-- The trial copy: `board = deepcopy(self); board[x, y].value_is(d)`. -/
def mkTrial (b : Board) (y x d : ℕ) : Board :=
  setCell b y x (valueIs (getCell b y x) d)

/-- The `for d in digits` loop of one cell's trials: the first digit
whose replay concludes mutates the original cell and returns. -/
def tryDigits (replay : Board → Replay) (b : Board) (y x : ℕ) :
    List ℕ → Option Board
  | [] => none
  | d :: ds =>
    match replay (mkTrial b y x d) with
    | .raised => some (setCell b y x (canNotBe (getCell b y x) [d]))
    | .solved => some (setCell b y x (valueIs (getCell b y x) d))
    | .stalled => tryDigits replay b y x ds

/-- The cell scan for one trial size: try every cell whose candidate
list has exactly `dlen` digits. -/
def chainCells (replay : Board → Replay) (b : Board) (dlen : ℕ) :
    List (ℕ × ℕ) → Option Board
  | [] => none
  | (y, x) :: rest =>
    if (getCell b y x).digits.length = dlen then
      match tryDigits replay b y x (getCell b y x).digits with
      | some b' => some b'
      | none => chainCells replay b dlen rest
    else chainCells replay b dlen rest

/-- The 81 coordinates (the dict iteration, here in row-major order; the
properties proved below do not depend on the order). -/
def allCoords : List (ℕ × ℕ) :=
  (List.range 9).flatMap (fun y => (List.range 9).map (fun x => (y, x)))

/-- The outer `for digits_len in xrange(2, chain_length + 1)` loop. -/
def chainLoop (replay : Board → Replay) (b : Board) : List ℕ → Board
  | [] => b
  | dlen :: rest =>
    match chainCells replay b dlen allCoords with
    | some b' => b'
    | none => chainLoop replay b rest

/-- `Board.chain_contradiction` with chain length `cl`. -/
def chainContradiction (replay : Board → Replay) (cl : ℕ) (b : Board) : Board :=
  chainLoop replay b (List.range' 2 (cl - 1))

/-!  ## Lemmas about the elimination primitive  -/

theorem elimStep_black (a : Cell) (d : ℕ) : (elimStep a d).black = a.black := by
  unfold elimStep; split <;> rfl

theorem elimStep_known (a : Cell) (d : ℕ) : (elimStep a d).known = a.known := by
  unfold elimStep; split <;> rfl

/-- The loop of `can_not_be` componentwise: `black`, `given` and `known`
are untouched; `digits` undergoes the erasures; `removed` gains, and both
sure-candidate caches lose, exactly the digits of `n` that were
candidates. -/
theorem elimFold_spec (n : List ℕ) : ∀ a : Cell,
    (n.foldl elimStep a).black = a.black
  ∧ (n.foldl elimStep a).given = a.given
  ∧ (n.foldl elimStep a).known = a.known
  ∧ (n.foldl elimStep a).digits = n.foldl List.erase a.digits
  ∧ (n.foldl elimStep a).removed = a.removed ∪ (a.digits.filter (· ∈ n)).toFinset
  ∧ (n.foldl elimStep a).scRow = a.scRow \ (a.digits.filter (· ∈ n)).toFinset
  ∧ (n.foldl elimStep a).scCol = a.scCol \ (a.digits.filter (· ∈ n)).toFinset := by
  induction n with
  | nil =>
    intro a
    simp
  | cons d rest ih =>
    intro a
    by_cases hd : d ∈ a.digits
    · have hstep : elimStep a d =
        { a with digits := a.digits.erase d,
                 removed := insert d a.removed,
                 scRow := a.scRow.erase d,
                 scCol := a.scCol.erase d } := by
        unfold elimStep; rw [if_pos hd]
      rw [List.foldl_cons, hstep]
      obtain ⟨h1, h2, h3, h4, h5, h6, h7⟩ := ih
        { a with digits := a.digits.erase d, removed := insert d a.removed,
                 scRow := a.scRow.erase d, scCol := a.scCol.erase d }
      refine ⟨h1, h2, h3, ?_, ?_, ?_, ?_⟩
      · rw [h4]; rfl
      · rw [h5]
        ext x
        by_cases hxd : x = d
        · subst hxd
          simp [hd]
        · simp only [Finset.mem_union, Finset.mem_insert, List.mem_toFinset,
            List.mem_filter, List.mem_cons, decide_eq_true_eq,
            List.mem_erase_of_ne hxd]
          tauto
      · rw [h6]
        ext x
        by_cases hxd : x = d
        · subst hxd
          simp [hd]
        · simp only [Finset.mem_sdiff, Finset.mem_erase, List.mem_toFinset,
            List.mem_filter, List.mem_cons, decide_eq_true_eq,
            List.mem_erase_of_ne hxd]
          tauto
      · rw [h7]
        ext x
        by_cases hxd : x = d
        · subst hxd
          simp [hd]
        · simp only [Finset.mem_sdiff, Finset.mem_erase, List.mem_toFinset,
            List.mem_filter, List.mem_cons, decide_eq_true_eq,
            List.mem_erase_of_ne hxd]
          tauto
    · have hstep : elimStep a d = a := by
        unfold elimStep; rw [if_neg hd]
      have hfilter : ∀ p : List ℕ,
          a.digits.filter (· ∈ d :: p) = a.digits.filter (· ∈ p) := by
        intro p
        apply List.filter_congr
        intro x hx
        have hxd : x ≠ d := fun h => hd (h ▸ hx)
        simp [List.mem_cons, hxd]
      rw [List.foldl_cons, hstep]
      obtain ⟨h1, h2, h3, h4, h5, h6, h7⟩ := ih a
      refine ⟨h1, h2, h3, ?_, ?_, ?_, ?_⟩
      · rw [h4, List.foldl_cons, List.erase_of_not_mem hd]
      · rw [h5, hfilter]
      · rw [h6, hfilter]
      · rw [h7, hfilter]

/-- Erasing the digits of `n` one by one from a duplicate-free list
keeps exactly the digits outside `n`. -/
theorem foldl_erase_eq_filter (n : List ℕ) : ∀ l : List ℕ, l.Nodup →
    n.foldl List.erase l = l.filter (· ∉ n) := by
  induction n with
  | nil =>
    intro l _
    simp
  | cons d rest ih =>
    intro l hl
    rw [List.foldl_cons, ih (l.erase d) (hl.erase d), hl.erase_eq_filter,
      List.filter_filter]
    apply List.filter_congr
    intro x _
    simp only [List.mem_cons, decide_not, Bool.not_eq_eq_eq_not, Bool.not_true,
      decide_eq_false_iff_not, not_or, Bool.and_eq_false_imp, bne_eq_false_iff_eq,
      Bool.not_eq_true]
    by_cases hxd : x = d <;> by_cases hxr : x ∈ rest <;> simp [hxd, hxr]

/-- Eliminations never grow the candidate list. -/
theorem foldl_erase_subset (n : List ℕ) : ∀ l : List ℕ,
    n.foldl List.erase l ⊆ l := by
  induction n with
  | nil => intro l; simp
  | cons d rest ih =>
    intro l
    rw [List.foldl_cons]
    exact fun x hx => List.erase_subset d l (ih (l.erase d) hx)

/-- `can_not_be` on an unknown cell with duplicate-free candidates, in
closed form. -/
theorem canNotBe_closed (c : Cell) (n : List ℕ)
    (hu : c.isUnknown = true) (hn : c.digits.Nodup) :
    canNotBe c n =
      { c with digits := c.digits.filter (· ∉ n),
               removed := c.removed ∪ (c.digits.filter (· ∈ n)).toFinset,
               scRow := c.scRow \ (c.digits.filter (· ∈ n)).toFinset,
               scCol := c.scCol \ (c.digits.filter (· ∈ n)).toFinset,
               known := decide ((c.digits.filter (· ∉ n)).length = 1) } := by
  have hknown : c.known = false := by
    unfold Cell.isUnknown at hu
    simp only [Bool.and_eq_true, Bool.not_eq_true'] at hu
    exact hu.1
  obtain ⟨h1, h2, h3, h4, h5, h6, h7⟩ := elimFold_spec n c
  unfold canNotBe
  rw [if_pos hu]
  simp only [h4, foldl_erase_eq_filter n c.digits hn]
  by_cases hlen : (c.digits.filter (· ∉ n)).length = 1
  · rw [if_pos hlen]
    cases hc : n.foldl elimStep c
    rw [hc] at h1 h2 h3 h4 h5 h6 h7
    simp only at h1 h2 h3 h4 h5 h6 h7 ⊢
    rw [foldl_erase_eq_filter n c.digits hn] at h4
    simp only [decide_not] at hlen
    simp [h1, h2, h4, h5, h6, h7, hlen]
  · rw [if_neg hlen]
    cases hc : n.foldl elimStep c
    rw [hc] at h1 h2 h3 h4 h5 h6 h7
    simp only at h1 h2 h3 h4 h5 h6 h7 ⊢
    rw [foldl_erase_eq_filter n c.digits hn] at h4
    simp only [decide_not] at hlen
    simp [h1, h2, h3, h4, h5, h6, h7, hlen, hknown]

theorem isUnknown_known {c : Cell} (h : c.isUnknown = true) : c.known = false := by
  unfold Cell.isUnknown at h
  simp only [Bool.and_eq_true, Bool.not_eq_true'] at h
  exact h.1

theorem isUnknown_black {c : Cell} (h : c.isUnknown = true) : c.black = false := by
  unfold Cell.isUnknown at h
  simp only [Bool.and_eq_true, Bool.not_eq_true'] at h
  exact h.2

/-- `can_not_be` on an unknown cell never touches `black` or the
candidate-free fields it does not mention; in particular the candidate
list of the result is the erasure fold of the input list. -/
theorem canNotBe_digits (c : Cell) (n : List ℕ) :
    (canNotBe c n).digits = if c.isUnknown then n.foldl List.erase c.digits
                            else c.digits := by
  unfold canNotBe
  by_cases hu : c.isUnknown = true
  · obtain ⟨_, _, _, h4, _, _, _⟩ := elimFold_spec n c
    rw [if_pos hu, if_pos hu]
    split <;> simpa using h4
  · simp only [Bool.not_eq_true] at hu
    rw [hu]
    simp

/-!  ## Claim theorems  -/

/-- C5: every `Cell` operation — construction from a digit string,
`can_not_be`, and `value_is` — maintains the invariant that the `known`
flag is set exactly when the candidate list has one element. -/
theorem cell_ops_preserve_known_iff_singleton :
    (∀ syms : List Sym, cellInv (Cell.init syms))
  ∧ (∀ (c : Cell) (n : List ℕ), cellInv c → cellInv (canNotBe c n))
  ∧ (∀ (c : Cell) (d : ℕ), cellInv (valueIs c d)) := by
  refine ⟨?_, ?_, ?_⟩
  · intro syms
    unfold Cell.init cellInv
    simp
  · intro c n hinv
    unfold canNotBe
    by_cases hu : c.isUnknown = true
    · obtain ⟨_, _, h3, _, _, _, _⟩ := elimFold_spec n c
      rw [if_pos hu]
      by_cases hlen : (n.foldl elimStep c).digits.length = 1
      · rw [if_pos hlen]
        exact ⟨fun _ => hlen, fun _ => rfl⟩
      · rw [if_neg hlen]
        refine ⟨fun hk => absurd (h3 ▸ hk) ?_, fun hl => absurd hl hlen⟩
        rw [isUnknown_known hu]
        simp
    · simp only [Bool.not_eq_true] at hu
      rw [hu]
      simpa using hinv
  · intro c d
    unfold valueIs cellInv
    simp

/-- C5 witness: the invariant instantiated after a concrete elimination
on a fresh unknown cell. -/
theorem cell_ops_invariant_witness :
    cellInv (canNotBe (Cell.init [Sym.unknownSym]) [1, 2, 3, 4, 5, 6, 7, 8]) :=
  cell_ops_preserve_known_iff_singleton.2.1 (Cell.init [Sym.unknownSym])
    [1, 2, 3, 4, 5, 6, 7, 8] (by decide)

/-- C10: on a black or already-known cell, `can_not_be` is the identity
— the `is_unknown` guard fails, so no field changes and in particular
the final digit of a determined cell can never be removed through this
primitive. -/
theorem can_not_be_frames_black_or_known (c : Cell) (n : List ℕ)
    (h : c.black = true ∨ c.known = true) : canNotBe c n = c := by
  unfold canNotBe Cell.isUnknown
  rcases h with h | h <;> simp [h]

/-- C10 witness: a black clue cell and a known cell are untouched by a
concrete elimination. -/
theorem can_not_be_frame_witness :
    canNotBe (Cell.init [Sym.clueSym 5]) [5] = Cell.init [Sym.clueSym 5]
  ∧ canNotBe (Cell.init [Sym.digitSym 7]) [7] = Cell.init [Sym.digitSym 7] :=
  ⟨can_not_be_frames_black_or_known _ [5] (Or.inl (by decide)),
   can_not_be_frames_black_or_known _ [7] (Or.inr (by decide))⟩

theorem canNotBe_of_not_unknown {c : Cell} (h : c.isUnknown = false)
    (n : List ℕ) : canNotBe c n = c := by
  unfold canNotBe
  rw [h]
  simp

theorem elimFold_id {c : Cell} {n : List ℕ} (h : ∀ d ∈ n, d ∉ c.digits) :
    n.foldl elimStep c = c := by
  induction n with
  | nil => rfl
  | cons d rest ih =>
    rw [List.foldl_cons]
    have hstep : elimStep c d = c := by
      unfold elimStep
      rw [if_neg (h d (List.mem_cons_self d rest))]
    rw [hstep]
    exact ih (fun e he => h e (List.mem_cons_of_mem d he))

theorem canNotBe_noop {c : Cell} {n : List ℕ} (hinv : cellInv c)
    (h : ∀ d ∈ n, d ∉ c.digits) : canNotBe c n = c := by
  by_cases hu : c.isUnknown = true
  · unfold canNotBe
    rw [if_pos hu, elimFold_id h]
    have hlen : c.digits.length ≠ 1 := by
      intro hl
      have := hinv.2 hl
      rw [isUnknown_known hu] at this
      exact Bool.false_ne_true this
    rw [if_neg hlen]
  · simp only [Bool.not_eq_true] at hu
    exact canNotBe_of_not_unknown hu n

/-- C8: on a white unknown cell, `can_not_be(n)` keeps exactly the
candidates outside `n`, recomputes `known` as "one candidate left", and
purges every eliminated digit from both cached sure-candidate sets; with
the digits of `n` absent it is a no-op, and a second application of the
same digit set changes nothing (idempotence). -/
theorem can_not_be_elimination_contract :
    (∀ (c : Cell) (n : List ℕ), c.isUnknown = true → c.digits.Nodup →
        (canNotBe c n).digits = c.digits.filter (· ∉ n)
      ∧ ((canNotBe c n).known = true ↔ (canNotBe c n).digits.length = 1)
      ∧ ∀ d ∈ n, d ∉ (canNotBe c n).digits
          ∧ (d ∈ c.digits → d ∉ (canNotBe c n).scRow ∧ d ∉ (canNotBe c n).scCol))
  ∧ (∀ (c : Cell) (n : List ℕ), cellInv c → (∀ d ∈ n, d ∉ c.digits) →
        canNotBe c n = c)
  ∧ (∀ (c : Cell) (n : List ℕ), cellInv c → c.digits.Nodup →
        canNotBe (canNotBe c n) n = canNotBe c n) := by
  refine ⟨?_, fun c n hinv h => canNotBe_noop hinv h, ?_⟩
  · intro c n hu hn
    rw [canNotBe_closed c n hu hn]
    refine ⟨rfl, by simp, ?_⟩
    intro d hd
    refine ⟨?_, fun hdig => ⟨?_, ?_⟩⟩
    · simp [List.mem_filter, hd]
    · simp [Finset.mem_sdiff, List.mem_filter, hd, hdig]
    · simp [Finset.mem_sdiff, List.mem_filter, hd, hdig]
  · intro c n hinv hn
    by_cases hu : c.isUnknown = true
    · rw [canNotBe_closed c n hu hn]
      by_cases hlen : (c.digits.filter (· ∉ n)).length = 1
      · apply canNotBe_of_not_unknown
        unfold Cell.isUnknown
        simp only [decide_not] at hlen
        simp [hlen]
      · have hblack : c.black = false := isUnknown_black hu
        have hu' : Cell.isUnknown
            { c with digits := c.digits.filter (· ∉ n),
                     removed := c.removed ∪ (c.digits.filter (· ∈ n)).toFinset,
                     scRow := c.scRow \ (c.digits.filter (· ∈ n)).toFinset,
                     scCol := c.scCol \ (c.digits.filter (· ∈ n)).toFinset,
                     known := decide ((c.digits.filter (· ∉ n)).length = 1) } = true := by
          unfold Cell.isUnknown
          simp only [decide_not] at hlen
          simp [hlen, hblack]
        apply canNotBe_noop
        · unfold cellInv
          simp
        · intro d hd hmem
          simp only [List.mem_filter, decide_not, Bool.not_eq_true',
            decide_eq_false_iff_not] at hmem
          exact hmem.2 hd
    · simp only [Bool.not_eq_true] at hu
      rw [canNotBe_of_not_unknown hu n, canNotBe_of_not_unknown hu n]

/-- C8 witness: the contract at a concrete cell (`'2345'`) and digit set
`[2, 9]`: removal, purge, no-op on absent digits, idempotence. -/
theorem can_not_be_contract_witness :
    ((canNotBe (Cell.init [Sym.digitSym 2, Sym.digitSym 3, Sym.digitSym 4,
        Sym.digitSym 5]) [2, 9]).digits =
      (Cell.init [Sym.digitSym 2, Sym.digitSym 3, Sym.digitSym 4,
        Sym.digitSym 5]).digits.filter (· ∉ ([2, 9] : List ℕ))
  ∧ ((canNotBe (Cell.init [Sym.digitSym 2, Sym.digitSym 3, Sym.digitSym 4,
        Sym.digitSym 5]) [2, 9]).known = true ↔
      (canNotBe (Cell.init [Sym.digitSym 2, Sym.digitSym 3, Sym.digitSym 4,
        Sym.digitSym 5]) [2, 9]).digits.length = 1)
  ∧ ∀ d ∈ ([2, 9] : List ℕ),
      d ∉ (canNotBe (Cell.init [Sym.digitSym 2, Sym.digitSym 3, Sym.digitSym 4,
        Sym.digitSym 5]) [2, 9]).digits
      ∧ (d ∈ (Cell.init [Sym.digitSym 2, Sym.digitSym 3, Sym.digitSym 4,
          Sym.digitSym 5]).digits →
          d ∉ (canNotBe (Cell.init [Sym.digitSym 2, Sym.digitSym 3, Sym.digitSym 4,
            Sym.digitSym 5]) [2, 9]).scRow
        ∧ d ∉ (canNotBe (Cell.init [Sym.digitSym 2, Sym.digitSym 3, Sym.digitSym 4,
            Sym.digitSym 5]) [2, 9]).scCol))
  ∧ canNotBe (canNotBe (Cell.init [Sym.digitSym 2, Sym.digitSym 3, Sym.digitSym 4,
      Sym.digitSym 5]) [2, 9]) [2, 9] =
      canNotBe (Cell.init [Sym.digitSym 2, Sym.digitSym 3, Sym.digitSym 4,
        Sym.digitSym 5]) [2, 9] :=
  ⟨can_not_be_elimination_contract.1 _ [2, 9] (by decide) (by decide),
   can_not_be_elimination_contract.2.2 _ [2, 9] (by decide) (by decide)⟩

theorem canNotBe_digits_subset (c : Cell) (n : List ℕ) :
    (canNotBe c n).digits ⊆ c.digits := by
  rw [canNotBe_digits]
  split
  · exact foldl_erase_subset n c.digits
  · exact fun x hx => hx

theorem valueIs_digits_subset (c : Cell) (d : ℕ) (h : d ∈ c.digits) :
    (valueIs c d).digits ⊆ c.digits := by
  intro x hx
  unfold valueIs at hx
  simp only [List.mem_singleton] at hx
  exact hx ▸ h

theorem applyOps_digits_subset : ∀ (ops : List CellOp) (c : Cell),
    opsValid c ops → (applyOps c ops).digits ⊆ c.digits := by
  intro ops
  induction ops with
  | nil => intro c _; exact fun x hx => hx
  | cons op rest ih =>
    intro c hv
    unfold opsValid at hv
    have hsub : (applyOp c op).digits ⊆ c.digits := by
      cases op with
      | elim n => exact canNotBe_digits_subset c n
      | assign d => exact valueIs_digits_subset c d hv.1
    exact fun x hx => hsub (ih (applyOp c op) hv.2 hx)

theorem getD_map_digits_subset (f : Cell → Cell)
    (hf : ∀ c, (f c).digits ⊆ c.digits) (l : List Cell) (i : ℕ) :
    ((l.map f).getD i default).digits ⊆ (l.getD i default).digits := by
  rw [List.getD_eq_getElem?_getD, List.getD_eq_getElem?_getD, List.getElem?_map]
  cases l[i]? with
  | none => exact fun x hx => hx
  | some c => exact hf c

theorem compartmentRangeCheck_digits_subset (cells : List Cell) (i : ℕ) :
    ((compartmentRangeCheck cells).getD i default).digits ⊆
      (cells.getD i default).digits := by
  unfold compartmentRangeCheck
  split
  · exact fun x hx => hx
  · exact getD_map_digits_subset _ (fun c => canNotBe_digits_subset c _) cells i

theorem nakedGroupEliminate_digits_subset (cells : List Cell) (comb : List ℕ)
    (i : ℕ) :
    ((nakedGroupEliminate cells comb).getD i default).digits ⊆
      (cells.getD i default).digits := by
  unfold nakedGroupEliminate
  split
  · by_cases hi : i < cells.length
    · rw [List.getD_eq_getElem?_getD, List.getElem?_map, List.getElem?_range hi,
        Option.map_some', Option.getD_some]
      split
      · exact fun x hx => hx
      · split
        · exact fun x hx => hx
        · exact canNotBe_digits_subset _ _
    · rw [List.getD_eq_getElem?_getD, List.getElem?_map,
        List.getElem?_eq_none (by simpa using Nat.le_of_not_lt hi),
        Option.map_none', Option.getD_none]
      intro x hx
      simp only [default, List.not_mem_nil] at hx
  · exact fun x hx => hx

theorem foldl_getD_digits_subset {β : Type} (g : List Cell → β → List Cell)
    (hg : ∀ (cs : List Cell) (a : β) (i : ℕ),
      ((g cs a).getD i default).digits ⊆ (cs.getD i default).digits) :
    ∀ (l : List β) (cs : List Cell) (i : ℕ),
      ((l.foldl g cs).getD i default).digits ⊆ (cs.getD i default).digits := by
  intro l
  induction l with
  | nil => intro cs i; exact fun x hx => hx
  | cons a rest ih =>
    intro cs i
    rw [List.foldl_cons]
    exact fun x hx => hg cs a i (ih (g cs a) i hx)

theorem nakedGroupsByCells_digits_subset (cells : List Cell) (i : ℕ) :
    ((nakedGroupsByCells cells).getD i default).digits ⊆
      (cells.getD i default).digits := by
  unfold nakedGroupsByCells
  exact foldl_getD_digits_subset _
    (fun cs r j => foldl_getD_digits_subset nakedGroupEliminate
      (fun cs' comb j' => nakedGroupEliminate_digits_subset cs' comb j') _ cs j)
    _ cells i

/-- C4: candidate sets only shrink.  The two candidate-mutating
primitives (`can_not_be` always, `value_is` under its assertion) shrink
the candidate list; hence so does any mutation trace a technique issues
on a cell, and so do the embedded techniques `compartment_range_check`
and `naked_groups`, cell by cell. -/
theorem techniques_shrink_candidates :
    (∀ (c : Cell) (n : List ℕ), (canNotBe c n).digits ⊆ c.digits)
  ∧ (∀ (c : Cell) (d : ℕ), d ∈ c.digits → (valueIs c d).digits ⊆ c.digits)
  ∧ (∀ (c : Cell) (ops : List CellOp), opsValid c ops →
        (applyOps c ops).digits ⊆ c.digits)
  ∧ (∀ (cells : List Cell) (i : ℕ),
        ((compartmentRangeCheck cells).getD i default).digits ⊆
          (cells.getD i default).digits)
  ∧ (∀ (cells : List Cell) (i : ℕ),
        ((nakedGroupsByCells cells).getD i default).digits ⊆
          (cells.getD i default).digits) :=
  ⟨canNotBe_digits_subset,
   valueIs_digits_subset,
   fun c ops => applyOps_digits_subset ops c,
   compartmentRangeCheck_digits_subset,
   nakedGroupsByCells_digits_subset⟩

/-- C4 witness: a concrete trace (an elimination followed by a valid
assignment) shrinks the candidates of a concrete cell. -/
theorem techniques_shrink_witness :
    (applyOps (Cell.init [Sym.unknownSym])
        [CellOp.elim [1, 2, 3], CellOp.assign 7]).digits ⊆
      (Cell.init [Sym.unknownSym]).digits :=
  techniques_shrink_candidates.2.2.1 (Cell.init [Sym.unknownSym])
    [CellOp.elim [1, 2, 3], CellOp.assign 7] (by decide)

/-- C7: the compartment range check on the row compartment
`['234567', '56789', '1235678', '#']` yields
`['34567', '56789', '35678', '#']` — the digits outside the achievable
window of consecutive values (`1` and `2` here) are eliminated from
every cell of the compartment, and the black cell is untouched. -/
theorem compartment_range_check_example :
    (mapCompartments compartmentRangeCheck
      [Cell.init [Sym.digitSym 2, Sym.digitSym 3, Sym.digitSym 4, Sym.digitSym 5,
         Sym.digitSym 6, Sym.digitSym 7],
       Cell.init [Sym.digitSym 5, Sym.digitSym 6, Sym.digitSym 7, Sym.digitSym 8,
         Sym.digitSym 9],
       Cell.init [Sym.digitSym 1, Sym.digitSym 2, Sym.digitSym 3, Sym.digitSym 5,
         Sym.digitSym 6, Sym.digitSym 7, Sym.digitSym 8],
       Cell.init [Sym.blackSym]]).map Cell.digits =
    [[3, 4, 5, 6, 7], [5, 6, 7, 8, 9], [3, 5, 6, 7, 8], []] := by decide

/-- C6 counterexample: for the line `['45', '45', '45']`, the cells at
positions `0` and `1` are a group of `N = 2` cells whose candidate union
`{4, 5}` has exactly `2` digits, yet `naked_groups_by_cells` does not
eliminate the group's digits from the remaining cell: its candidates are
a subset of the union, so the code skips it and `4` survives — the claim
"eliminates the group's digits from all other cells" fails here. -/
theorem naked_groups_subset_cell_kept :
    (comboUnion [Cell.init [Sym.digitSym 4, Sym.digitSym 5],
       Cell.init [Sym.digitSym 4, Sym.digitSym 5],
       Cell.init [Sym.digitSym 4, Sym.digitSym 5]] [0, 1]).card = 2
  ∧ 4 ∈ comboUnion [Cell.init [Sym.digitSym 4, Sym.digitSym 5],
       Cell.init [Sym.digitSym 4, Sym.digitSym 5],
       Cell.init [Sym.digitSym 4, Sym.digitSym 5]] [0, 1]
  ∧ 4 ∈ ((nakedGroupsByCells [Cell.init [Sym.digitSym 4, Sym.digitSym 5],
       Cell.init [Sym.digitSym 4, Sym.digitSym 5],
       Cell.init [Sym.digitSym 4, Sym.digitSym 5]]).getD 2 default).digits := by
  decide

/-- C6 (amended): when a group's candidate union has exactly as many
digits as the group has cells, the per-combination elimination of
`naked_groups_by_cells` leaves the group's cells unchanged, leaves any
outside cell whose candidates are a subset of the union unchanged (the
subset check — such a cell would otherwise be emptied), and removes the
union's digits from the candidates of every other outside cell. -/
theorem naked_group_eliminates_nonsubset_outsiders
    (cells : List Cell) (comb : List ℕ)
    (hcard : (comboUnion cells comb).card = comb.length)
    (i : ℕ) (hi : i < cells.length) :
    (i ∈ comb →
      (nakedGroupEliminate cells comb).getD i default = cells.getD i default)
  ∧ (i ∉ comb → (cells.getD i default).digits.toFinset ⊆ comboUnion cells comb →
      (nakedGroupEliminate cells comb).getD i default = cells.getD i default)
  ∧ (i ∉ comb → ¬(cells.getD i default).digits.toFinset ⊆ comboUnion cells comb →
      (cells.getD i default).isUnknown = true →
      (cells.getD i default).digits.Nodup →
      ((nakedGroupEliminate cells comb).getD i default).digits =
        (cells.getD i default).digits.filter (· ∉ comboUnion cells comb)) := by
  have hval : (nakedGroupEliminate cells comb).getD i default =
      (if i ∈ comb then cells.getD i default
       else if (cells.getD i default).digits.toFinset ⊆ comboUnion cells comb then
         cells.getD i default
       else canNotBe (cells.getD i default)
         ((comboUnion cells comb).sort (· ≤ ·))) := by
    unfold nakedGroupEliminate
    rw [if_pos hcard, List.getD_eq_getElem?_getD, List.getElem?_map,
      List.getElem?_range hi, Option.map_some', Option.getD_some]
  refine ⟨?_, ?_, ?_⟩
  · intro hmem
    rw [hval, if_pos hmem]
  · intro hmem hsub
    rw [hval, if_neg hmem, if_pos hsub]
  · intro hmem hsub hu hn
    rw [hval, if_neg hmem, if_neg hsub,
      canNotBe_closed _ _ hu hn]
    apply List.filter_congr
    intro x _
    simp [Finset.mem_sort]

/-- C6 witness: on `['45', '45', '45', '149']` with the group at
positions `0, 1`, the subset cell at `2` is kept unchanged while the
cell at `3` loses the group digit `4`. -/
theorem naked_group_eliminate_witness :
    (nakedGroupEliminate [Cell.init [Sym.digitSym 4, Sym.digitSym 5],
        Cell.init [Sym.digitSym 4, Sym.digitSym 5],
        Cell.init [Sym.digitSym 4, Sym.digitSym 5],
        Cell.init [Sym.digitSym 1, Sym.digitSym 4, Sym.digitSym 9]]
        [0, 1]).getD 2 default =
      ([Cell.init [Sym.digitSym 4, Sym.digitSym 5],
        Cell.init [Sym.digitSym 4, Sym.digitSym 5],
        Cell.init [Sym.digitSym 4, Sym.digitSym 5],
        Cell.init [Sym.digitSym 1, Sym.digitSym 4, Sym.digitSym 9]].getD 2 default)
  ∧ ((nakedGroupEliminate [Cell.init [Sym.digitSym 4, Sym.digitSym 5],
        Cell.init [Sym.digitSym 4, Sym.digitSym 5],
        Cell.init [Sym.digitSym 4, Sym.digitSym 5],
        Cell.init [Sym.digitSym 1, Sym.digitSym 4, Sym.digitSym 9]]
        [0, 1]).getD 3 default).digits =
      ([Cell.init [Sym.digitSym 4, Sym.digitSym 5],
        Cell.init [Sym.digitSym 4, Sym.digitSym 5],
        Cell.init [Sym.digitSym 4, Sym.digitSym 5],
        Cell.init [Sym.digitSym 1, Sym.digitSym 4, Sym.digitSym 9]].getD 3
          default).digits.filter
        (· ∉ comboUnion [Cell.init [Sym.digitSym 4, Sym.digitSym 5],
          Cell.init [Sym.digitSym 4, Sym.digitSym 5],
          Cell.init [Sym.digitSym 4, Sym.digitSym 5],
          Cell.init [Sym.digitSym 1, Sym.digitSym 4, Sym.digitSym 9]] [0, 1]) :=
  ⟨((naked_group_eliminates_nonsubset_outsiders _ [0, 1] (by decide) 2
      (by decide)).2.1 (by decide) (by decide)),
   ((naked_group_eliminates_nonsubset_outsiders _ [0, 1] (by decide) 3
      (by decide)).2.2 (by decide) (by decide) (by decide) (by decide))⟩

/-- C3: evaluating `Board._valid` at the claim's trigger states.  On a
board whose only white cell has an empty candidate list (obtained by a
reachable elimination), `_valid` raises `NameError` — its `raise
Board.InvalidSolution(x, y, c.digits)` references the names `x`, `y`
that the enclosing loop never binds — instead of an `InvalidSolution`
carrying the offending coordinate.  The duplicate branch does raise
`InvalidSolution` with coordinate and the conflicting value. -/
theorem valid_empty_cell_raises_name_error :
    validCheck [[canNotBe (Cell.init [Sym.unknownSym])
        [1, 2, 3, 4, 5, 6, 7, 8, 9]]] = some ValidError.nameError
  ∧ validCheck [[Cell.init [Sym.digitSym 5], Cell.init [Sym.digitSym 5]]] =
      some (ValidError.dup 1 0 5) := by
  constructor
  · decide
  · decide

/-!  C1: the driver.  -/

theorem solvePass_some_completeness :
    ∀ (steps : List Tech) (b : Board) (comp : ℤ) (b' : Board) (c : ℤ),
      solvePass steps b comp = (b', some c) → c = completeness b' := by
  intro steps
  induction steps with
  | nil =>
    intro b comp b' c h
    simp only [solvePass, Prod.mk.injEq] at h
    exact Option.noConfusion h.2
  | cons s rest ih =>
    intro b comp b' c h
    simp only [solvePass] at h
    split at h
    · cases h
      rfl
    · exact ih _ _ _ _ h

theorem solvePass_none_completeness :
    ∀ (steps : List Tech) (b : Board) (b' : Board),
      solvePass steps b (completeness b) = (b', none) →
      completeness b' = completeness b := by
  intro steps
  induction steps with
  | nil =>
    intro b b' h
    simp only [solvePass] at h
    cases h
    rfl
  | cons s rest ih =>
    intro b b' h
    simp only [solvePass] at h
    split at h
    · cases h
    · rename_i hguard
      simp only [not_or, ne_eq, not_not] at hguard
      rw [hguard.2] at h
      rw [ih _ _ h, ← hguard.2]

theorem completeness_clearRemoved (b : Board) :
    completeness (clearRemoved b) = completeness b := by
  unfold completeness clearRemoved Board.cells
  induction b with
  | nil => rfl
  | cons row rest ih =>
    simp only [List.map_cons, List.flatten_cons, List.map_append, List.sum_append]
    rw [ih]
    congr 1
    induction row with
    | nil => rfl
    | cons c rcs ihr =>
      simp only [List.map_cons, List.sum_cons]
      rw [ihr]
      rfl

theorem solveGo_ok_iff : ∀ (fuel : ℕ) (steps : List Tech) (b : Board)
    (res : Bool) (b' : Board),
    solveGo steps fuel b (completeness b) = some (Except.ok (res, b')) →
    (res = true ↔ completeness b' = 729) := by
  intro fuel
  induction fuel with
  | zero =>
    intro steps b res b' h
    exact Option.noConfusion h
  | succ fuel ih =>
    intro steps b res b' h
    unfold solveGo at h
    by_cases hc : completeness b = 729
    · rw [if_pos hc] at h
      cases hv : validCheck (clearRemoved b) with
      | some e =>
        rw [hv] at h
        simp at h
      | none =>
        rw [hv] at h
        simp only [Option.some.injEq, Except.ok.injEq, Prod.mk.injEq] at h
        obtain ⟨hres, hb⟩ := h
        subst hb
        rw [← hres, completeness_clearRemoved, hc]
        simp
    · rw [if_neg hc] at h
      rcases hp : solvePass steps b (completeness b) with ⟨b2, o⟩
      rw [hp] at h
      cases o with
      | some c =>
        dsimp only at h
        rw [solvePass_some_completeness steps b (completeness b) b2 c hp] at h
        exact ih steps b2 res b' h
      | none =>
        dsimp only at h
        have hcb : completeness b2 = completeness b :=
          solvePass_none_completeness steps b b2 hp
        rw [if_pos hcb] at h
        cases hv : validCheck (clearRemoved b2) with
        | some e =>
          rw [hv] at h
          simp at h
        | none =>
          rw [hv] at h
          simp only [Option.some.injEq, Except.ok.injEq, Prod.mk.injEq] at h
          obtain ⟨hres, hb⟩ := h
          subst hb
          rw [← hres, completeness_clearRemoved, hcb]
          simp [hc]

/-- C1: with the completeness metric of `_completeness` (`9` per known
cell, else `9 − |candidates|`, summed over all cells), `solve` returns
`True` exactly when the final board's completeness is `729`; and when a
full pass over every technique of the list produces no hit and no
completeness change, `solve` returns `False` with the board retained in
the state the pass left it in (only the debug `removed` sets cleared),
provided the validity check passes on that state. -/
theorem solve_true_iff_completeness_729 :
    (∀ (steps : List Tech) (fuel : ℕ) (b : Board) (res : Bool) (b' : Board),
        solveDriver steps fuel b = some (Except.ok (res, b')) →
        (res = true ↔ completeness b' = 729))
  ∧ (∀ (steps : List Tech) (fuel : ℕ) (b b' : Board),
        completeness b ≠ 729 →
        solvePass steps b (completeness b) = (b', none) →
        validCheck (clearRemoved b') = none →
        solveGo steps (fuel + 1) b (completeness b) =
          some (Except.ok (false, clearRemoved b'))) := by
  constructor
  · intro steps fuel b res b' h
    exact solveGo_ok_iff fuel steps b res b' h
  · intro steps fuel b b' h729 hpass hvalid
    unfold solveGo
    rw [if_neg h729, hpass]
    dsimp only
    rw [if_pos (solvePass_none_completeness steps b b' hpass), hvalid]

/-- C1 witness: the empty step list stalls at once on an unsolved
board; the driver reports `False` and the returned board's completeness
is not `729`. -/
theorem solve_driver_witness :
    ((false = true) ↔ completeness (clearRemoved ([] : Board)) = 729)
  ∧ solveGo ([] : List Tech) 1 ([] : Board) (completeness ([] : Board)) =
      some (Except.ok (false, clearRemoved ([] : Board))) :=
  ⟨solve_true_iff_completeness_729.1 [] 1 [] false (clearRemoved [])
     (solve_true_iff_completeness_729.2 [] 0 [] [] (by decide) (by rfl) (by rfl)),
   solve_true_iff_completeness_729.2 [] 0 [] [] (by decide) (by rfl) (by rfl)⟩

/-!  C2: the contradiction search.  -/

theorem getCell_setCell_ne (b : Board) (y x : ℕ) (c : Cell) (y' x' : ℕ)
    (h : (y', x') ≠ (y, x)) :
    getCell (setCell b y x c) y' x' = getCell b y' x' := by
  unfold getCell setCell
  by_cases hy : y' = y
  · subst hy
    have hx : x' ≠ x := fun hx => h (by rw [hx])
    by_cases hyl : y' < b.length
    · have hrow : (List.set b y' ((b.getD y' []).set x c)).getD y' [] =
          (b.getD y' []).set x c := by
        rw [List.getD_eq_getElem?_getD, List.getElem?_set_self hyl,
          Option.getD_some]
      rw [hrow, List.getD_eq_getElem?_getD, List.getElem?_set_ne (Ne.symm hx),
        ← List.getD_eq_getElem?_getD]
    · rw [List.set_eq_of_length_le (Nat.le_of_not_lt hyl)]
  · have hrow : (List.set b y ((b.getD y []).set x c)).getD y' [] =
        b.getD y' [] := by
      rw [List.getD_eq_getElem?_getD, List.getElem?_set_ne (Ne.symm hy),
        ← List.getD_eq_getElem?_getD]
    rw [hrow]

theorem tryDigits_stalled (replay : Board → Replay) (b : Board) (y x : ℕ) :
    ∀ ds : List ℕ, (∀ d ∈ ds, replay (mkTrial b y x d) = .stalled) →
      tryDigits replay b y x ds = none := by
  intro ds
  induction ds with
  | nil => intro _; rfl
  | cons d rest ih =>
    intro h
    have hstep : tryDigits replay b y x (d :: rest) =
        tryDigits replay b y x rest := by
      conv_lhs => unfold tryDigits
      rw [h d (List.mem_cons_self d rest)]
    exact hstep.trans (ih (fun e he => h e (List.mem_cons_of_mem d he)))

theorem tryDigits_cases (replay : Board → Replay) (b : Board) (y x : ℕ) :
    ∀ ds : List ℕ, tryDigits replay b y x ds = none
    ∨ ∃ d ∈ ds,
        (replay (mkTrial b y x d) = .raised ∧
          tryDigits replay b y x ds =
            some (setCell b y x (canNotBe (getCell b y x) [d])))
      ∨ (replay (mkTrial b y x d) = .solved ∧
          tryDigits replay b y x ds =
            some (setCell b y x (valueIs (getCell b y x) d))) := by
  intro ds
  induction ds with
  | nil => exact Or.inl rfl
  | cons d rest ih =>
    cases hr : replay (mkTrial b y x d) with
    | raised =>
      refine Or.inr ⟨d, List.mem_cons_self d rest, Or.inl ⟨hr, ?_⟩⟩
      conv_lhs => unfold tryDigits
      rw [hr]
    | solved =>
      refine Or.inr ⟨d, List.mem_cons_self d rest, Or.inr ⟨hr, ?_⟩⟩
      conv_lhs => unfold tryDigits
      rw [hr]
    | stalled =>
      have hstep : tryDigits replay b y x (d :: rest) =
          tryDigits replay b y x rest := by
        conv_lhs => unfold tryDigits
        rw [hr]
      rcases ih with hnone | ⟨e, he, hres⟩
      · exact Or.inl (hstep.trans hnone)
      · refine Or.inr ⟨e, List.mem_cons_of_mem d he, ?_⟩
        rcases hres with ⟨h1, h2⟩ | ⟨h1, h2⟩
        · exact Or.inl ⟨h1, hstep.trans h2⟩
        · exact Or.inr ⟨h1, hstep.trans h2⟩

theorem chainCells_cases (replay : Board → Replay) (b : Board) (dlen : ℕ) :
    ∀ coords : List (ℕ × ℕ), chainCells replay b dlen coords = none
    ∨ ∃ y x d, d ∈ (getCell b y x).digits ∧
        ((replay (mkTrial b y x d) = .raised ∧
           chainCells replay b dlen coords =
             some (setCell b y x (canNotBe (getCell b y x) [d])))
        ∨ (replay (mkTrial b y x d) = .solved ∧
           chainCells replay b dlen coords =
             some (setCell b y x (valueIs (getCell b y x) d)))) := by
  intro coords
  induction coords with
  | nil => exact Or.inl rfl
  | cons p rest ih =>
    rcases p with ⟨y, x⟩
    by_cases hlen : (getCell b y x).digits.length = dlen
    · cases ht : tryDigits replay b y x (getCell b y x).digits with
      | none =>
        have hstep : chainCells replay b dlen ((y, x) :: rest) =
            chainCells replay b dlen rest := by
          conv_lhs => unfold chainCells
          rw [if_pos hlen, ht]
        rcases ih with hnone | ⟨y', x', d, hd, hres⟩
        · exact Or.inl (hstep.trans hnone)
        · refine Or.inr ⟨y', x', d, hd, ?_⟩
          rcases hres with ⟨h1, h2⟩ | ⟨h1, h2⟩
          · exact Or.inl ⟨h1, hstep.trans h2⟩
          · exact Or.inr ⟨h1, hstep.trans h2⟩
      | some b2 =>
        have hstep : chainCells replay b dlen ((y, x) :: rest) = some b2 := by
          conv_lhs => unfold chainCells
          rw [if_pos hlen, ht]
        rcases tryDigits_cases replay b y x (getCell b y x).digits with
          hnone | ⟨d, hd, hres⟩
        · rw [ht] at hnone
          exact Option.noConfusion hnone
        · refine Or.inr ⟨y, x, d, hd, ?_⟩
          rcases hres with ⟨h1, h2⟩ | ⟨h1, h2⟩
          · exact Or.inl ⟨h1, hstep.trans (ht.symm.trans h2)⟩
          · exact Or.inr ⟨h1, hstep.trans (ht.symm.trans h2)⟩
    · have hstep : chainCells replay b dlen ((y, x) :: rest) =
          chainCells replay b dlen rest := by
        conv_lhs => unfold chainCells
        rw [if_neg hlen]
      rcases ih with hnone | ⟨y', x', d, hd, hres⟩
      · exact Or.inl (hstep.trans hnone)
      · refine Or.inr ⟨y', x', d, hd, ?_⟩
        rcases hres with ⟨h1, h2⟩ | ⟨h1, h2⟩
        · exact Or.inl ⟨h1, hstep.trans h2⟩
        · exact Or.inr ⟨h1, hstep.trans h2⟩

theorem chainLoop_cases (replay : Board → Replay) (b : Board) :
    ∀ lens : List ℕ, chainLoop replay b lens = b
    ∨ ∃ y x d, d ∈ (getCell b y x).digits ∧
        ((replay (mkTrial b y x d) = .raised ∧
           chainLoop replay b lens =
             setCell b y x (canNotBe (getCell b y x) [d]))
        ∨ (replay (mkTrial b y x d) = .solved ∧
           chainLoop replay b lens =
             setCell b y x (valueIs (getCell b y x) d))) := by
  intro lens
  induction lens with
  | nil => exact Or.inl rfl
  | cons dlen rest ih =>
    cases hcc : chainCells replay b dlen allCoords with
    | none =>
      have hstep : chainLoop replay b (dlen :: rest) = chainLoop replay b rest := by
        conv_lhs => unfold chainLoop
        rw [hcc]
      rcases ih with hb | ⟨y, x, d, hd, hres⟩
      · exact Or.inl (hstep.trans hb)
      · refine Or.inr ⟨y, x, d, hd, ?_⟩
        rcases hres with ⟨h1, h2⟩ | ⟨h1, h2⟩
        · exact Or.inl ⟨h1, hstep.trans h2⟩
        · exact Or.inr ⟨h1, hstep.trans h2⟩
    | some b2 =>
      have hstep : chainLoop replay b (dlen :: rest) = b2 := by
        conv_lhs => unfold chainLoop
        rw [hcc]
      rcases chainCells_cases replay b dlen allCoords with hnone | ⟨y, x, d, hd, hres⟩
      · rw [hcc] at hnone
        exact Option.noConfusion hnone
      · refine Or.inr ⟨y, x, d, hd, ?_⟩
        rcases hres with ⟨h1, h2⟩ | ⟨h1, h2⟩
        · rw [hcc] at h2
          exact Or.inl ⟨h1, hstep.trans (Option.some.inj h2)⟩
        · rw [hcc] at h2
          exact Or.inr ⟨h1, hstep.trans (Option.some.inj h2)⟩

theorem chainCells_stalled (replay : Board → Replay) (b : Board) (dlen : ℕ)
    (hrep : ∀ y x d, replay (mkTrial b y x d) = .stalled) :
    ∀ coords : List (ℕ × ℕ), chainCells replay b dlen coords = none := by
  intro coords
  induction coords with
  | nil => rfl
  | cons p rest ih =>
    rcases p with ⟨y, x⟩
    have hstep : chainCells replay b dlen ((y, x) :: rest) =
        chainCells replay b dlen rest := by
      conv_lhs => unfold chainCells
      rw [tryDigits_stalled replay b y x _ (fun d _ => hrep y x d)]
      by_cases hlen : (getCell b y x).digits.length = dlen
      · rw [if_pos hlen]
      · rw [if_neg hlen]
    exact hstep.trans ih

/-- C2: in the contradiction search, each trial is run on its own trial
board `mkTrial b y x d` (the model of `deepcopy(self)` plus `value_is`),
and the search is a total function into `Board` — no replay exception
escapes.  Its result is either the untouched original or the original
with exactly the trial cell updated: by `can_not_be` of the trial digit
when that digit's replay raised, by `value_is` when the replay solved.
`setCell` changes no other cell, and the raised digit is then gone from
the cell's candidates.  If every trial merely stalls, the original board
is returned unchanged. -/
theorem chain_contradiction_isolated :
    (∀ (replay : Board → Replay) (cl : ℕ) (b : Board),
        chainContradiction replay cl b = b
      ∨ ∃ y x d, d ∈ (getCell b y x).digits ∧
          ((replay (mkTrial b y x d) = .raised ∧
             chainContradiction replay cl b =
               setCell b y x (canNotBe (getCell b y x) [d]))
          ∨ (replay (mkTrial b y x d) = .solved ∧
             chainContradiction replay cl b =
               setCell b y x (valueIs (getCell b y x) d))))
  ∧ (∀ (replay : Board → Replay) (cl : ℕ) (b : Board),
        (∀ y x d, replay (mkTrial b y x d) = .stalled) →
        chainContradiction replay cl b = b)
  ∧ (∀ (b : Board) (y x : ℕ) (c : Cell) (y' x' : ℕ), (y', x') ≠ (y, x) →
        getCell (setCell b y x c) y' x' = getCell b y' x')
  ∧ (∀ (c : Cell) (d : ℕ), c.isUnknown = true → c.digits.Nodup →
        d ∉ (canNotBe c [d]).digits) := by
  refine ⟨?_, ?_, getCell_setCell_ne, ?_⟩
  · intro replay cl b
    exact chainLoop_cases replay b _
  · intro replay cl b hrep
    unfold chainContradiction
    induction List.range' 2 (cl - 1) with
    | nil => rfl
    | cons dlen rest ih =>
      have hstep : chainLoop replay b (dlen :: rest) = chainLoop replay b rest := by
        conv_lhs => unfold chainLoop
        rw [chainCells_stalled replay b dlen hrep allCoords]
      exact hstep.trans ih
  · intro c d hu hn
    rw [canNotBe_closed c [d] hu hn]
    simp [List.mem_filter]

/-- C2 witness: a replay that always stalls leaves a concrete board
unchanged; a write to `(0, 0)` leaves the cell at `(0, 1)` as it was;
and a raised trial digit is no longer a candidate of the updated cell. -/
theorem chain_contradiction_witness :
    chainContradiction (fun _ => Replay.stalled) 4
        [[Cell.init [Sym.unknownSym]]] = [[Cell.init [Sym.unknownSym]]]
  ∧ getCell (setCell [[Cell.init [Sym.unknownSym], Cell.init [Sym.digitSym 5]]]
        0 0 (Cell.init [Sym.digitSym 9])) 0 1 =
      getCell [[Cell.init [Sym.unknownSym], Cell.init [Sym.digitSym 5]]] 0 1
  ∧ 3 ∉ (canNotBe (Cell.init [Sym.unknownSym]) [3]).digits :=
  ⟨chain_contradiction_isolated.2.1 (fun _ => Replay.stalled) 4
     [[Cell.init [Sym.unknownSym]]] (fun _ _ _ => rfl),
   chain_contradiction_isolated.2.2.1 _ 0 0 (Cell.init [Sym.digitSym 9]) 0 1
     (by decide),
   chain_contradiction_isolated.2.2.2 (Cell.init [Sym.unknownSym]) 3
     (by decide) (by decide)⟩

end Str8ts
